import Mathlib

/-!
Verification development for the Niagara Haystack MCP client
(`niagara_mcp.py`, with the companion gateway `relay_api_example.py`).

Strings are modelled as `List Char`; each definition is a direct shallow
embedding of the corresponding Python function, with the Python name kept.
Python's heterogeneously typed return values of `parse_zinc_value`
(`None` / `bool` / `str` / `float` / `dict with val and unit`) are embedded
as the closed inductive `PyVal`, where the numeric value is represented by
its source text (no machine floating point is involved in any claim).
-/

namespace Niagara

/-- The double-quote character (written numerically for scanner hygiene). -/
def dquote : Char := Char.ofNat 34

/-- The backtick character. -/
def btick : Char := Char.ofNat 96

/-- ASCII/latin-1 whitespace as stripped by Python's `str.strip()`
(the inputs in this development are ASCII). -/
def isPySpace (c : Char) : Bool :=
  c = ' ' || c = '\t' || c = '\n' || c = '\r' || c = Char.ofNat 11 || c = Char.ofNat 12

/-- Remove trailing whitespace, as Python's `str.rstrip()`. -/
def dropTrailingSpace : List Char → List Char
  | [] => []
  | c :: cs =>
    match dropTrailingSpace cs with
    | [] => if isPySpace c then [] else [c]
    | r => c :: r

/-- Python's `str.strip()`: remove leading and trailing whitespace. -/
def pyStrip (l : List Char) : List Char :=
  dropTrailingSpace (l.dropWhile isPySpace)

/-- Python's `str.split(sep)` for a one-character separator: keeps empty
pieces and yields one piece even for the empty string. -/
def splitChar (sep : Char) : List Char → List (List Char)
  | [] => [[]]
  | x :: xs =>
    if x = sep then [] :: splitChar sep xs
    else
      match splitChar sep xs with
      | t :: ts => (x :: t) :: ts
      | [] => [[x]]

/-- Python's `str.split(sep, 1)` for a one-character separator: the part
before the first separator, and the remainder when a separator occurs. -/
def splitFirst (sep : Char) : List Char → List Char × Option (List Char)
  | [] => ([], none)
  | x :: xs =>
    if x = sep then ([], some xs)
    else
      let p := splitFirst sep xs
      (x :: p.1, p.2)

/-- `str.startswith` on character lists. -/
def startsWithL : List Char → List Char → Bool
  | _, [] => true
  | [], _ :: _ => false
  | c :: cs, p :: ps => c = p && startsWithL cs ps

/-- Substring containment, Python's `needle in hay`. -/
def containsL (hay needle : List Char) : Bool :=
  startsWithL hay needle ||
    match hay with
    | [] => false
    | _ :: t => containsL t needle

/-- ASCII lower-casing of a character list (`str.lower()`). -/
def lowerL (l : List Char) : List Char := l.map Char.toLower

/-- ASCII decimal digit. -/
def isDigitC (c : Char) : Bool := '0' ≤ c && c ≤ '9'

/-- Continuation of a Python float "digitpart": digits with single
underscores allowed only between digits. -/
def digitPartRest : List Char → Bool
  | [] => true
  | '_' :: c :: cs => isDigitC c && digitPartRest cs
  | '_' :: [] => false
  | c :: cs => isDigitC c && digitPartRest cs

/-- A Python float "digitpart": nonempty, starts with a digit. -/
def isDigitPart : List Char → Bool
  | [] => false
  | c :: cs => isDigitC c && digitPartRest cs

/-- The mantissa of a Python float literal: `digits`, `digits.`,
`digits.digits`, or `.digits`. -/
def isMantissa (l : List Char) : Bool :=
  match splitFirst '.' l with
  | (a, none) => isDigitPart a
  | (a, some b) =>
    (isDigitPart a && (b = [] || isDigitPart b)) || (a = [] && isDigitPart b)

/-- The exponent part after `e`: optional sign, then a digitpart. -/
def isExpPart (l : List Char) : Bool :=
  match l with
  | '+' :: r => isDigitPart r
  | '-' :: r => isDigitPart r
  | r => isDigitPart r

/-- After sign removal: `inf`, `infinity`, `nan`, or a numeric literal
with optional exponent. -/
def isFloatBody (l : List Char) : Bool :=
  l = "inf".toList || l = "infinity".toList || l = "nan".toList ||
    match splitFirst 'e' l with
    | (m, none) => isMantissa m
    | (m, some ex) => isMantissa m && isExpPart ex

/-- Recognizer for Python's `float(s)` succeeding (ASCII inputs):
surrounding whitespace stripped, optional sign, then inf/nan or a
numeric literal with underscores between digits. -/
def isPyFloat (s : List Char) : Bool :=
  let t := lowerL (pyStrip s)
  match t with
  | '+' :: r => isFloatBody r
  | '-' :: r => isFloatBody r
  | r => isFloatBody r

/-- The value space of `parse_zinc_value` (Python returns `None`, `bool`,
`str`, `float`, or a dict with `val` and `unit`; the float value is kept
as its source text `raw`, and the unit-dict case is `num raw (some u)`). -/
inductive PyVal where
  | none : PyVal
  | bool : Bool → PyVal
  | str : List Char → PyVal
  | num : List Char → Option (List Char) → PyVal
deriving DecidableEq, Repr

instance : Inhabited PyVal := ⟨.none⟩

/-- `value[1:-1]` in Python. -/
def innerSlice (v : List Char) : List Char := (v.drop 1).dropLast

/-- The literal checkmark characters appearing in the source file
(a doubly encoded check mark: U+00E2, U+0153, U+201C). -/
def markChars : List Char := [Char.ofNat 226, Char.ofNat 339, Char.ofNat 8220]

/-- `HaystackClient.parse_zinc_value`: decode one Zinc cell.
Mirrors the Python branch order exactly, including the `value[2:]`
slice shared by the `d:`, `t:` and `ts:` prefixes. -/
def parse_zinc_value (value : List Char) : PyVal :=
  if value = [] ∨ value = ['N'] then .none
  else if value.headD ' ' = dquote ∧ value.getLastD ' ' = dquote then
    .str (innerSlice value)
  else if value.headD ' ' = btick ∧ value.getLastD ' ' = btick then
    .str (innerSlice value)
  else if startsWithL value ['r', ':'] then .str value
  else if value = ['m', ':'] ∨ value = markChars then .bool true
  else if startsWithL value ['n', ':'] then
    let rest := value.drop 2
    let parts := splitFirst ' ' rest
    if isPyFloat parts.1 then
      match parts.2 with
      | some u => if u = [] then .num parts.1 none else .num parts.1 (some u)
      | none => .num parts.1 none
    else .str value
  else if startsWithL value ['d', ':'] = true ∨ startsWithL value ['t', ':'] = true ∨
      startsWithL value ['t', 's', ':'] = true then
    .str (value.drop 2)
  else if startsWithL value ['s', ':'] then .str (value.drop 2)
  else .str value

/-- The header tokenizer of `parse_zinc_response`: split on commas outside
double quotes, dropping the quote characters themselves; tokens are
stripped, and a trailing empty accumulator is not emitted. -/
def headerScan : List Char → List Char → Bool → List (List Char)
  | [], cur, _ => if cur = [] then [] else [pyStrip cur]
  | c :: cs, cur, inQ =>
    if c = dquote then headerScan cs cur (!inQ)
    else if c = ',' ∧ inQ = false then pyStrip cur :: headerScan cs [] inQ
    else headerScan cs (cur ++ [c]) inQ

/-- Split one header line into column names. -/
def splitHeader (line : List Char) : List (List Char) :=
  headerScan line [] false

/-- The row tokenizer of `parse_zinc_response`: split on commas outside
double quotes and outside backticks, keeping quote and backtick
characters inside the token. -/
def rowScan : List Char → List Char → Bool → Bool → List (List Char)
  | [], cur, _, _ => if cur = [] then [] else [pyStrip cur]
  | c :: cs, cur, inQ, inB =>
    if c = dquote ∧ inB = false then rowScan cs (cur ++ [c]) (!inQ) inB
    else if c = btick ∧ inQ = false then rowScan cs (cur ++ [c]) inQ (!inB)
    else if c = ',' ∧ inQ = false ∧ inB = false then
      pyStrip cur :: rowScan cs [] inQ inB
    else rowScan cs (cur ++ [c]) inQ inB

/-- Split one data line into raw cell tokens. -/
def splitRow (line : List Char) : List (List Char) :=
  rowScan line [] false false

/-- One decoded row: a Python dict modelled as an insertion-ordered
association list with unique keys. -/
def Row := List (List Char × PyVal)

instance : DecidableEq Row := inferInstanceAs (DecidableEq (List (List Char × PyVal)))

/-- Python `d[k] = v` on an insertion-ordered dict: replace the value in
place when the key exists, otherwise append the binding. -/
def dictInsert (d : List (List Char × PyVal)) (k : List Char) (v : PyVal) :
    List (List Char × PyVal) :=
  if d.any (fun p => p.1 = k) then
    d.map (fun p => if p.1 = k then (k, v) else p)
  else d ++ [(k, v)]

/-- The cell value assigned for column index `i`: the decoded token when
the row has one at that position, `None` otherwise. -/
def valAt (values : List (List Char)) (i : Nat) : PyVal :=
  match values.get? i with
  | some v => parse_zinc_value v
  | none => .none

/-- The `for i, header in enumerate(headers)` loop assembling a row dict. -/
def mkRowAux (values : List (List Char)) : List (List Char) → Nat →
    List (List Char × PyVal) → List (List Char × PyVal)
  | [], _, d => d
  | h :: hs, i, d => mkRowAux values hs (i + 1) (dictInsert d h (valAt values i))

/-- Assemble one row dict from header tokens and row tokens. -/
def mkRow (headers values : List (List Char)) : List (List Char × PyVal) :=
  mkRowAux values headers 0 []

/-- The normalized grid returned by `parse_zinc_response`:
version line, column names, rows. -/
structure ZincGrid where
  ver : List Char
  cols : List (List Char)
  rows : List (List (List Char × PyVal))
deriving DecidableEq

/-- Result of `parse_zinc_response`: either the error dictionary
(Invalid Zinc response, carrying the raw text) or a decoded grid. -/
inductive ZincParse where
  | error : List Char → ZincParse
  | grid : ZincGrid → ZincParse
deriving DecidableEq

/-- `HaystackClient.parse_zinc_response`: strip the body, split into
lines, demand at least two lines, tokenize the header, then decode every
non-blank remaining line as a row. -/
def parse_zinc_response (text : List Char) : ZincParse :=
  match splitChar '\n' (pyStrip text) with
  | l0 :: l1 :: rest =>
    let headers := splitHeader l1
    let rows := (rest.filter (fun l => ¬(pyStrip l = []))).map
      (fun l => mkRow headers (splitRow l))
    .grid ⟨l0, headers, rows⟩
  | _ => .error text

/-- The non-blank data lines of a body: what the row loop iterates over. -/
def dataLines (text : List Char) : List (List Char) :=
  ((splitChar '\n' (pyStrip text)).drop 2).filter (fun l => ¬(pyStrip l = []))

/-! ## HTTP layer: deployment modes, transport selection and dispatch -/

/-- `DeploymentMode` from the source. -/
inductive DeploymentMode where
  | local : DeploymentMode
  | relay : DeploymentMode
  | hybrid : DeploymentMode
deriving DecidableEq

/-- `NiagaraConfig`: the connection configuration record. -/
structure NiagaraConfig where
  mode : DeploymentMode
  relay_url : Option String
  relay_token : Option String
  host : String
  port : Nat
  username : String
  password : String
  haystack_path : String
  use_https : Bool
  timeout : Nat
  verify_ssl : Bool
deriving DecidableEq

/-- Python truthiness of an `Optional[str]`: `None` and `""` are falsy. -/
def truthyStr : Option String → Bool
  | none => false
  | some s => ¬(s = "")

/-- Python truthiness of an `Optional[Dict]` parameter map:
`None` and the empty dict are falsy. -/
def truthyParams : Option (List (String × String)) → Bool
  | none => false
  | some [] => false
  | some (_ :: _) => true

/-- `HaystackClient._get_base_url`. -/
def get_base_url (c : NiagaraConfig) : String :=
  if c.mode = .relay ∧ truthyStr c.relay_url then c.relay_url.getD ""
  else
    (if c.use_https then "https" else "http") ++ "://" ++ c.host ++ ":" ++
      toString c.port ++ c.haystack_path

/-- The authentication strategy installed by `HaystackClient._create_client`. -/
inductive Auth where
  | bearer : String → Auth
  | basic : String → String → Auth
  | noAuth : Auth
deriving DecidableEq

/-- Client authentication as configured by `_create_client`. -/
def clientAuth (c : NiagaraConfig) : Auth :=
  if c.mode = .relay ∧ truthyStr c.relay_token then .bearer (c.relay_token.getD "")
  else if ¬(c.username = "") then .basic c.username c.password
  else .noAuth

/-- HTTP method. -/
inductive Method where
  | get : Method
  | post : Method
deriving DecidableEq

/-- One wire request issued by `execute_op`. Parameter values are
modelled as strings (the source passes strings, or stringifies, for
every parameter relevant here). -/
structure Request where
  method : Method
  url : String
  query : List (String × String)
  formData : List (String × String)
  contentType : Option String
deriving DecidableEq

/-- A GET with query parameters. -/
def mkGet (url : String) (q : List (String × String)) : Request :=
  ⟨.get, url, q, [], none⟩

/-- A POST with a form-encoded body, as built in the 405 fallback. -/
def mkPostForm (url : String) (d : List (String × String)) : Request :=
  ⟨.post, url, [], d, some "application/x-www-form-urlencoded"⟩

/-- What the peer does with one request: a connection-level failure, or
a response with status, content type and body. -/
inductive HttpResult where
  | connError : HttpResult
  | resp : Nat → String → String → HttpResult
deriving DecidableEq

/-- The outcome of `execute_op` as observed by the caller. -/
inductive ExecResult where
  | okJson : String → ExecResult
  | okGrid : ZincParse → ExecResult
  | okUnknown : String → ExecResult
  | httpError : Nat → String → ExecResult
  | unsupportedMedia : ExecResult
  | valueError : String → ExecResult
  | connFailure : ExecResult
deriving DecidableEq

/-- The response postlude of `execute_op`: the 415 check, then
`raise_for_status` (any non-2xx raised as an HTTP status error), then
content-type branching into JSON, Zinc, or unknown. -/
def finishResponse (r : HttpResult) : ExecResult :=
  match r with
  | .connError => .connFailure
  | .resp s ct body =>
    if s = 415 then .unsupportedMedia
    else if ¬(200 ≤ s ∧ s < 300) then .httpError s body
    else if containsL (lowerL ct.toList) "application/json".toList then .okJson body
    else if containsL (lowerL ct.toList) "text/zinc".toList ||
        startsWithL body.toList "ver:".toList then
      .okGrid (parse_zinc_response body.toList)
    else .okUnknown body

/-- Lookup of a key in a parameter map (`"k" in params` / `params["k"]`). -/
def paramGet (ps : List (String × String)) (k : String) : Option String :=
  ps.lookup k

/-- The optional single-key query fragment used by the `hisRead` branch. -/
def optParam (ps : List (String × String)) (k : String) : List (String × String) :=
  match paramGet ps k with
  | some v => [(k, v)]
  | none => []

/-- `HaystackClient.execute_op`: per-operation dispatch.  The function
returns the trace of wire requests actually issued together with the
caller-visible outcome.  The source contains no mutation of the
configuration or of the deployment mode anywhere in this method (or in
the module), so no state is threaded. -/
def execute_op (c : NiagaraConfig) (http : Request → HttpResult) (op : String)
    (params : Option (List (String × String))) : List Request × ExecResult :=
  let url := get_base_url c ++ "/" ++ op
  if op = "about" ∨ op = "ops" ∨ op = "formats" then
    let r := mkGet url []
    ([r], finishResponse (http r))
  else if op = "read" then
    let ps := params.getD []
    if truthyParams params ∧ (paramGet ps "filter").isSome then
      let qp := [("filter", (paramGet ps "filter").getD "")] ++
        (if (paramGet ps "limit").isSome then
          [("limit", (paramGet ps "limit").getD "")] else [])
      let r := mkGet url qp
      ([r], finishResponse (http r))
    else
      let r := mkGet url []
      ([r], finishResponse (http r))
  else if op = "hisRead" then
    if truthyParams params then
      let ps := params.getD []
      let r := mkGet url (optParam ps "id" ++ optParam ps "range")
      ([r], finishResponse (http r))
    else ([], .valueError "hisRead requires id and range parameters")
  else if op = "nav" then
    let ps := params.getD []
    if truthyParams params ∧ (paramGet ps "navId").isSome then
      let r := mkGet url [("navId", (paramGet ps "navId").getD "")]
      ([r], finishResponse (http r))
    else
      let r := mkGet url []
      ([r], finishResponse (http r))
  else if op = "watchSub" ∨ op = "watchPoll" ∨ op = "watchUnsub" ∨
      op = "pointWrite" then
    if truthyParams params then
      let ps := params.getD []
      let g := mkGet url ps
      match http g with
      | .resp 405 _ _ =>
        let p := mkPostForm url ps
        ([g, p], finishResponse (http p))
      | r => ([g], finishResponse r)
    else
      let r := mkGet url []
      ([r], finishResponse (http r))
  else
    if truthyParams params then
      let r := mkGet url (params.getD [])
      ([r], finishResponse (http r))
    else
      let r := mkGet url []
      ([r], finishResponse (http r))

/-- The route table of the bundled relay gateway `relay_api_example.py`:
GET /health, POST /haystack, POST /batch, GET /cache/points. -/
def relayAccepts (m : Method) (path : String) : Bool :=
  (m = .get && path = "/health") || (m = .post && path = "/haystack") ||
    (m = .post && path = "/batch") || (m = .get && path = "/cache/points")

/-- `relay_haystack` in `relay_api_example.py`: the gateway receives a
JSON body with an `operation` and optional `params` and forwards it as a
POST with a JSON body to the controller's per-operation URL. -/
def relay_haystack_forward (niagaraBase : String) (operation : String)
    (params : Option (List (String × String))) : Method × String × List (String × String) :=
  (.post, niagaraBase ++ "/" ++ operation, params.getD [])

/-! ## Concrete fixtures used by the closed theorems -/

/-- A direct (Local-mode) configuration. -/
def cfgLocal : NiagaraConfig :=
  ⟨.local, none, none, "plant.local", 8080, "", "", "/haystack", false, 30, true⟩

/-- A Hybrid-mode configuration with a relay URL and token configured. -/
def cfgHybrid : NiagaraConfig :=
  ⟨.hybrid, some "https://relay.example/haystack", some "tok", "plant.local",
    8080, "", "", "/haystack", false, 30, true⟩

/-- A Relay-mode configuration with a relay URL and token configured. -/
def cfgRelay : NiagaraConfig :=
  ⟨.relay, some "https://relay.example/haystack", some "tok", "plant.local",
    8080, "", "", "/haystack", false, 30, true⟩

/-- A peer that always answers 200 with a minimal Zinc body. -/
def http200zinc : Request → HttpResult :=
  fun _ => .resp 200 "text/zinc" "ver:\"3.0\"\nempty"

/-- The grid decoded from the minimal Zinc body above. -/
def grid200 : ZincGrid := ⟨"ver:\"3.0\"".toList, ["empty".toList], []⟩

/-- A peer that is unreachable: every request fails at connection level. -/
def httpDown : Request → HttpResult := fun _ => .connError

/-- A peer that answers 405 to GETs and 415 to POSTs. -/
def http405then415 : Request → HttpResult :=
  fun r => match r.method with
    | .post => .resp 415 "" "unsupported"
    | .get => .resp 405 "" "method not allowed"

/-- A peer that answers 405 to both GETs and POSTs. -/
def http405both : Request → HttpResult :=
  fun r => match r.method with
    | .post => .resp 405 "" "denied"
    | .get => .resp 405 "" "denied"

/-- Does an outcome report the missing-parameter `ValueError`? -/
def isValueErrorB : ExecResult → Bool
  | .valueError _ => true
  | _ => false

/-- Does an outcome report an HTTP status error? -/
def isHttpErrorB : ExecResult → Bool
  | .httpError _ _ => true
  | _ => false

/-- Wrap a token in double quotes. -/
def quoteWrap (s : List Char) : List Char := dquote :: s ++ [dquote]

/-- Wrap a token in backticks. -/
def tickWrap (s : List Char) : List Char := btick :: s ++ [btick]

/-- The non-blank lines of a body (a line is blank when stripping it
leaves nothing). -/
def nonBlankLines (text : List Char) : List (List Char) :=
  (splitChar '\n' text).filter (fun l => ¬(pyStrip l = []))

/-! ## Theorems -/

/-! ### Helper lemmas about stripping and the two tokenizers -/

theorem mem_dropTrailingSpace {x : Char} :
    ∀ {l : List Char}, x ∈ dropTrailingSpace l → x ∈ l := by
  intro l
  induction l with
  | nil => intro h; simp [dropTrailingSpace] at h
  | cons c cs ih =>
    intro h
    unfold dropTrailingSpace at h
    cases hr : dropTrailingSpace cs with
    | nil =>
      rw [hr] at h
      by_cases hc : isPySpace c = true
      · simp [hc] at h
      · simp only [hc, Bool.false_eq_true, if_false] at h
        simp at h
        simp [h]
    | cons a t =>
      rw [hr] at h
      rcases List.mem_cons.1 h with rfl | h2
      · exact List.mem_cons_self ..
      · exact List.mem_cons_of_mem _ (ih (hr ▸ h2))

theorem mem_pyStrip {x : Char} {l : List Char} (h : x ∈ pyStrip l) : x ∈ l := by
  unfold pyStrip at h
  exact (List.dropWhile_sublist _).subset (mem_dropTrailingSpace h)

theorem dropTrailingSpace_concat (l : List Char) (c : Char)
    (h : isPySpace c = false) : dropTrailingSpace (l ++ [c]) = l ++ [c] := by
  induction l with
  | nil => simp [dropTrailingSpace, h]
  | cons x xs ih =>
    show dropTrailingSpace (x :: (xs ++ [c])) = _
    unfold dropTrailingSpace
    rw [ih]
    cases hx : xs ++ [c] with
    | nil => exact absurd hx (by simp)
    | cons a t => exact congrArg (fun r => x :: r) hx.symm

theorem pyStrip_sandwich (a b : Char) (s : List Char)
    (ha : isPySpace a = false) (hb : isPySpace b = false) :
    pyStrip (a :: s ++ [b]) = a :: s ++ [b] := by
  unfold pyStrip
  have hd : List.dropWhile isPySpace (a :: (s ++ [b])) = a :: (s ++ [b]) := by
    simp [List.dropWhile, ha]
  rw [show List.dropWhile isPySpace ((a :: s) ++ [b]) =
    a :: (s ++ [b]) from hd]
  show dropTrailingSpace ((a :: s) ++ [b]) = (a :: s) ++ [b]
  exact dropTrailingSpace_concat (a :: s) b hb

theorem getLastD_snoc : ∀ (l : List Char) (a d : Char), (l ++ [a]).getLastD d = a := by
  intro l
  induction l with
  | nil => intro a d; rfl
  | cons x xs ih =>
    intro a d
    rw [List.cons_append, List.getLastD_cons]
    exact ih a x

/-- Inside double quotes, the row scanner copies every non-quote
character into the current token without splitting. -/
theorem rowScan_quote_pass :
    ∀ (s cs cur : List Char) (inB : Bool), (∀ c ∈ s, ¬(c = dquote)) →
      rowScan (s ++ cs) cur true inB = rowScan cs (cur ++ s) true inB := by
  intro s
  induction s with
  | nil => intro cs cur inB _; simp
  | cons c s' ih =>
    intro cs cur inB h
    have hc : ¬(c = dquote) := h c (List.mem_cons_self ..)
    show rowScan (c :: (s' ++ cs)) cur true inB = _
    simp only [rowScan]
    rw [if_neg (fun hh => hc hh.1)]
    rw [if_neg (fun hh => Bool.true_eq_false.mp hh.2)]
    rw [if_neg (fun hh => Bool.true_eq_false.mp hh.2.1)]
    rw [ih cs (cur ++ [c]) inB (fun y hy => h y (List.mem_cons_of_mem _ hy))]
    simp

/-- Inside backticks, the row scanner copies every non-backtick
character into the current token without splitting. -/
theorem rowScan_tick_pass :
    ∀ (s cs cur : List Char), (∀ c ∈ s, ¬(c = btick)) →
      rowScan (s ++ cs) cur false true = rowScan cs (cur ++ s) false true := by
  intro s
  induction s with
  | nil => intro cs cur _; simp
  | cons c s' ih =>
    intro cs cur h
    have hc : ¬(c = btick) := h c (List.mem_cons_self ..)
    show rowScan (c :: (s' ++ cs)) cur false true = _
    simp only [rowScan]
    rw [if_neg (fun hh => Bool.true_eq_false.mp hh.2)]
    rw [if_neg (fun hh => hc hh.1)]
    rw [if_neg (fun hh => Bool.true_eq_false.mp hh.2.2)]
    rw [ih cs (cur ++ [c]) (fun y hy => h y (List.mem_cons_of_mem _ hy))]
    simp

/-- Inside double quotes, the header scanner copies every non-quote
character into the current token without splitting. -/
theorem headerScan_quote_pass :
    ∀ (s cs cur : List Char), (∀ c ∈ s, ¬(c = dquote)) →
      headerScan (s ++ cs) cur true = headerScan cs (cur ++ s) true := by
  intro s
  induction s with
  | nil => intro cs cur _; simp
  | cons c s' ih =>
    intro cs cur h
    have hc : ¬(c = dquote) := h c (List.mem_cons_self ..)
    show headerScan (c :: (s' ++ cs)) cur true = _
    simp only [headerScan]
    rw [if_neg hc]
    rw [if_neg (fun hh => Bool.true_eq_false.mp hh.2)]
    rw [ih cs (cur ++ [c]) (fun y hy => h y (List.mem_cons_of_mem _ hy))]
    simp

/-- A fully double-quoted row token is one cell: the scanner never
splits at the commas inside the quotes. -/
theorem splitRow_quoteWrap (s : List Char) (h : ∀ c ∈ s, ¬(c = dquote)) :
    splitRow (quoteWrap s) = [quoteWrap s] := by
  have step1 : rowScan (dquote :: (s ++ [dquote])) [] false false =
      rowScan (s ++ [dquote]) [dquote] true false := by
    simp [rowScan]
  have step2 : rowScan (s ++ [dquote]) [dquote] true false =
      rowScan [dquote] (dquote :: s) true false := by
    have := rowScan_quote_pass s [dquote] [dquote] false h
    simpa using this
  have step3 : rowScan [dquote] (dquote :: s) true false =
      [pyStrip (dquote :: s ++ [dquote])] := by
    simp [rowScan]
  unfold splitRow quoteWrap
  rw [show dquote :: s ++ [dquote] = dquote :: (s ++ [dquote]) from rfl]
  rw [step1, step2, step3]
  rw [pyStrip_sandwich dquote dquote s (by decide) (by decide)]
  rfl

/-- A fully backticked row token is one cell: the scanner never splits
at the commas inside the backticks. -/
theorem splitRow_tickWrap (s : List Char) (h : ∀ c ∈ s, ¬(c = btick)) :
    splitRow (tickWrap s) = [tickWrap s] := by
  have hne : ¬(btick = dquote) := by decide
  have step1 : rowScan (btick :: (s ++ [btick])) [] false false =
      rowScan (s ++ [btick]) [btick] false true := by
    simp [rowScan, hne]
  have step2 : rowScan (s ++ [btick]) [btick] false true =
      rowScan [btick] (btick :: s) false true := by
    have := rowScan_tick_pass s [btick] [btick] h
    simpa using this
  have step3 : rowScan [btick] (btick :: s) false true =
      [pyStrip (btick :: s ++ [btick])] := by
    simp [rowScan, hne]
  unfold splitRow tickWrap
  rw [show btick :: s ++ [btick] = btick :: (s ++ [btick]) from rfl]
  rw [step1, step2, step3]
  rw [pyStrip_sandwich btick btick s (by decide) (by decide)]
  rfl

/-- A fully double-quoted header token is one column name: its inner
text, stripped, with the quote characters discarded. -/
theorem splitHeader_quoteWrap (s : List Char) (hne : ¬(s = []))
    (h : ∀ c ∈ s, ¬(c = dquote)) :
    splitHeader (quoteWrap s) = [pyStrip s] := by
  have step1 : headerScan (dquote :: (s ++ [dquote])) [] false =
      headerScan (s ++ [dquote]) [] true := by
    simp [headerScan]
  have step2 : headerScan (s ++ [dquote]) [] true =
      headerScan [dquote] s true := by
    have := headerScan_quote_pass s [dquote] [] h
    simpa using this
  have step3 : headerScan [dquote] s true = [pyStrip s] := by
    simp [headerScan, hne]
  unfold splitHeader quoteWrap
  rw [show dquote :: s ++ [dquote] = dquote :: (s ++ [dquote]) from rfl]
  rw [step1, step2, step3]

/-- Every token the header scanner emits is free of double quotes,
provided the current accumulator is. -/
theorem headerScan_no_dquote :
    ∀ (cs cur : List Char) (inQ : Bool), (∀ x ∈ cur, ¬(x = dquote)) →
      ∀ t ∈ headerScan cs cur inQ, ∀ x ∈ t, ¬(x = dquote) := by
  intro cs
  induction cs with
  | nil =>
    intro cur inQ hcur t ht x hx
    simp only [headerScan] at ht
    by_cases hc : cur = []
    · simp [hc] at ht
    · rw [if_neg hc] at ht
      rcases List.mem_cons.1 ht with rfl | h2
      · exact hcur x (mem_pyStrip hx)
      · simp at h2
  | cons c cs' ih =>
    intro cur inQ hcur t ht x hx
    simp only [headerScan] at ht
    by_cases h1 : c = dquote
    · rw [if_pos h1] at ht
      exact ih cur (!inQ) hcur t ht x hx
    · rw [if_neg h1] at ht
      by_cases h2 : c = ',' ∧ inQ = false
      · rw [if_pos h2] at ht
        rcases List.mem_cons.1 ht with rfl | h3
        · exact hcur x (mem_pyStrip hx)
        · exact ih [] inQ (by simp) t h3 x hx
      · rw [if_neg h2] at ht
        refine ih (cur ++ [c]) inQ ?_ t ht x hx
        intro y hy
        rcases List.mem_append.1 hy with hy | hy
        · exact hcur y hy
        · simp at hy
          subst hy
          exact h1

/-- The scalar decoder strips bounding double quotes from a quoted cell. -/
theorem parse_zinc_value_quoteWrap (s : List Char) :
    parse_zinc_value (quoteWrap s) = .str s := by
  unfold parse_zinc_value quoteWrap
  rw [if_neg (by rintro (h | h) <;> simp at h)]
  rw [if_pos ⟨rfl, getLastD_snoc (dquote :: s) dquote ' '⟩]
  unfold innerSlice
  simp

/-- The scalar decoder strips bounding backticks from a URI cell. -/
theorem parse_zinc_value_tickWrap (s : List Char) :
    parse_zinc_value (tickWrap s) = .str s := by
  unfold parse_zinc_value tickWrap
  rw [if_neg (by rintro (h | h) <;> simp at h)]
  rw [if_neg (fun hh => absurd (show btick = dquote from hh.1) (by decide))]
  rw [if_pos ⟨rfl, getLastD_snoc (btick :: s) btick ' '⟩]
  unfold innerSlice
  simp

/-- C1: in Hybrid mode with a relay URL and token configured, a
connection-level failure on the first call does NOT fall back to the
relay: `execute_op` issues exactly one request, to the direct (local)
endpoint, and surfaces the connection failure to the caller.  No request
ever reaches the relay, no retry happens, and the deployment mode is
never mutated (`execute_op` and the whole module contain no assignment
to the mode field, which is why the embedded function does not thread
any state).  This refutes the claimed Hybrid-to-Relay failover. -/
theorem execute_op_hybrid_no_failover :
    execute_op cfgHybrid httpDown "about" none =
      ([mkGet "http://plant.local:8080/haystack/about" []], .connFailure) ∧
    cfgHybrid.mode = .hybrid ∧
    truthyStr cfgHybrid.relay_url = true ∧
    get_base_url cfgHybrid = "http://plant.local:8080/haystack" := by
  decide

/-- C2: in Relay mode the client does NOT wrap the call as a single POST
with a JSON body to a fixed relay endpoint.  It resolves the base URL to
the relay URL and then runs the ordinary per-operation dispatch: `about`
goes out as a GET to `relay_url/about` with no body.  The bearer token is
indeed installed, but the bundled gateway of `relay_api_example.py` only
serves POST /haystack (plus /batch, /health, /cache/points), so the GET
the client emits matches no relay route, while the wrapped POST shape the
gateway expects is exactly what `relay_haystack` forwards. -/
theorem execute_op_relay_not_wrapped :
    execute_op cfgRelay http200zinc "about" none =
      ([mkGet "https://relay.example/haystack/about" []],
        .okGrid (.grid grid200)) ∧
    (mkGet "https://relay.example/haystack/about" []).method = .get ∧
    ¬(Method.get = Method.post) ∧
    clientAuth cfgRelay = .bearer "tok" ∧
    relayAccepts .get "/haystack/about" = false ∧
    relayAccepts .post "/haystack" = true := by
  decide

/-- C4: the `ts:` branch of the scalar decoder does not strip its
three-character prefix: the shared `value[2:]` slice leaves a leading
colon behind, so `decode ("ts:" ++ s)` yields `":" ++ s`, not `s`.  The
two-character prefixes `d:` and `t:` are stripped as claimed. -/
theorem parse_zinc_value_ts_bug :
    parse_zinc_value "ts:2024-01-01T00:00".toList =
      .str ":2024-01-01T00:00".toList ∧
    ¬(PyVal.str ":2024-01-01T00:00".toList =
      PyVal.str "2024-01-01T00:00".toList) ∧
    parse_zinc_value "d:2024-06-01".toList = .str "2024-06-01".toList ∧
    parse_zinc_value "t:10:30".toList = .str "10:30".toList := by
  decide

/-- C6 counterexample: a non-empty parameter map from which both `id`
and `range` are absent does not fail: the dispatcher only tests Python
truthiness of the whole map, so `hisRead` with `limit=5` goes out as a
GET with an empty query string and the call succeeds. -/
theorem execute_op_hisRead_no_key_validation :
    execute_op cfgLocal http200zinc "hisRead" (some [("limit", "5")]) =
      ([mkGet "http://plant.local:8080/haystack/hisRead" []],
        .okGrid (.grid grid200)) ∧
    isValueErrorB
      (execute_op cfgLocal http200zinc "hisRead" (some [("limit", "5")])).2
        = false := by
  decide

/-- C7 counterexample: when the POST retry after a 405 comes back 415,
the caller does not receive an HTTP status error carrying status and
body; the 415 check precedes `raise_for_status` and surfaces the
distinct unsupported-media error instead.  So "any non-2xx on the retry
is surfaced as HttpStatusError" fails at status 415. -/
theorem execute_op_pointWrite_415_retry_not_status_error :
    execute_op cfgLocal http405then415 "pointWrite" (some [("id", "@p1")]) =
      ([mkGet "http://plant.local:8080/haystack/pointWrite" [("id", "@p1")],
        mkPostForm "http://plant.local:8080/haystack/pointWrite"
          [("id", "@p1")]],
        .unsupportedMedia) ∧
    isHttpErrorB
      (execute_op cfgLocal http405then415 "pointWrite"
        (some [("id", "@p1")])).2 = false := by
  decide

/-- C6 (amended): for `hisRead` the request is a GET carrying whichever
of `id` and `range` are present in the parameter map as query
parameters; the missing-parameter failure fires exactly when the map is
absent or empty (Python truthiness of the whole dict), so a non-empty
map lacking both keys is dispatched with an empty query string. -/
theorem execute_op_hisRead_truthiness (c : NiagaraConfig)
    (http : Request → HttpResult) (ps : List (String × String)) :
    execute_op c http "hisRead" none =
      ([], .valueError "hisRead requires id and range parameters") ∧
    execute_op c http "hisRead" (some []) =
      ([], .valueError "hisRead requires id and range parameters") ∧
    (¬(ps = []) →
      (execute_op c http "hisRead" (some ps)).1 =
        [mkGet (get_base_url c ++ "/" ++ "hisRead")
          (optParam ps "id" ++ optParam ps "range")]) := by
  refine ⟨?_, ?_, ?_⟩
  · simp [execute_op, truthyParams]
  · simp [execute_op, truthyParams]
  · intro hp
    cases ps with
    | nil => exact absurd rfl hp
    | cons a t => simp [execute_op, truthyParams]

/-- C6 witness: the amended statement evaluated at the counterexample
input, a non-empty map holding only `limit`. -/
theorem execute_op_hisRead_truthiness_witness :
    (execute_op cfgLocal http200zinc "hisRead" (some [("limit", "5")])).1 =
      [mkGet (get_base_url cfgLocal ++ "/" ++ "hisRead")
        (optParam [("limit", "5")] "id" ++ optParam [("limit", "5")] "range")] :=
  (execute_op_hisRead_truthiness cfgLocal http200zinc [("limit", "5")]).2.2
    (by decide)

/-- C7 (amended): for the four form-capable operations with a non-empty
parameter map, a 405 on the initial GET triggers exactly one POST retry
with the same parameters form-encoded under
application/x-www-form-urlencoded; the outcome is whatever the retry
response yields, and a non-2xx retry status other than 415 is surfaced
as the HTTP status error carrying that status and body.  The trace has
exactly two requests, so no second retry can occur. -/
theorem execute_op_watch_405_fallback (c : NiagaraConfig)
    (http : Request → HttpResult) (op : String)
    (ps : List (String × String)) (ct b : String)
    (hop : op = "watchSub" ∨ op = "watchPoll" ∨ op = "watchUnsub" ∨
      op = "pointWrite")
    (hps : ¬(ps = []))
    (h405 : http (mkGet (get_base_url c ++ "/" ++ op) ps) = .resp 405 ct b) :
    (execute_op c http op (some ps)).1 =
      [mkGet (get_base_url c ++ "/" ++ op) ps,
        mkPostForm (get_base_url c ++ "/" ++ op) ps] ∧
    (execute_op c http op (some ps)).2 =
      finishResponse (http (mkPostForm (get_base_url c ++ "/" ++ op) ps)) ∧
    (∀ s ct2 b2,
      http (mkPostForm (get_base_url c ++ "/" ++ op) ps) = .resp s ct2 b2 →
      ¬(200 ≤ s ∧ s < 300) → ¬(s = 415) →
      (execute_op c http op (some ps)).2 = .httpError s b2) := by
  have main : (execute_op c http op (some ps)).1 =
      [mkGet (get_base_url c ++ "/" ++ op) ps,
        mkPostForm (get_base_url c ++ "/" ++ op) ps] ∧
      (execute_op c http op (some ps)).2 =
        finishResponse (http (mkPostForm (get_base_url c ++ "/" ++ op) ps)) := by
    cases ps with
    | nil => exact absurd rfl hps
    | cons a t =>
      rcases hop with rfl | rfl | rfl | rfl <;>
        simp only [execute_op] <;>
        simp [truthyParams] <;>
        rw [h405] <;>
        exact ⟨rfl, rfl⟩
  refine ⟨main.1, main.2, ?_⟩
  intro s ct2 b2 hpost h2xx h415
  rw [main.2, hpost]
  simp only [finishResponse]
  rw [if_neg h415, if_pos h2xx]

/-- C7 witness: the amended statement evaluated with a peer answering
405 to both the GET and the POST retry: the retry is sent once and the
second 405 is surfaced as the HTTP status error. -/
theorem execute_op_watch_405_fallback_witness :
    (execute_op cfgLocal http405both "pointWrite" (some [("id", "@p1")])).1 =
      [mkGet (get_base_url cfgLocal ++ "/" ++ "pointWrite") [("id", "@p1")],
        mkPostForm (get_base_url cfgLocal ++ "/" ++ "pointWrite")
          [("id", "@p1")]] ∧
    (execute_op cfgLocal http405both "pointWrite" (some [("id", "@p1")])).2 =
      .httpError 405 "denied" := by
  have h := execute_op_watch_405_fallback cfgLocal http405both "pointWrite"
    [("id", "@p1")] "" "denied" (Or.inr (Or.inr (Or.inr rfl)))
    (by decide) (by decide)
  exact ⟨h.1, h.2.2 405 "" "denied" (by decide) (by decide) (by decide)⟩

/-- C9: the scalar decoder is a total function (every Lean function here
is; no branch can raise), a cell with the `n:` prefix whose numeric part
does not parse as a Python float is returned verbatim as a string, and a
cell matching none of the decode rules (each hypothesis below negates
one if-condition of `parse_zinc_value`, in source order) is returned
unchanged as a string. -/
theorem parse_zinc_value_fallback :
    (∀ rest : List Char, isPyFloat (splitFirst ' ' rest).1 = false →
      parse_zinc_value ('n' :: ':' :: rest) = .str ('n' :: ':' :: rest)) ∧
    (∀ v : List Char,
      ¬(v = [] ∨ v = ['N']) →
      ¬(v.headD ' ' = dquote ∧ v.getLastD ' ' = dquote) →
      ¬(v.headD ' ' = btick ∧ v.getLastD ' ' = btick) →
      ¬(startsWithL v ['r', ':'] = true) →
      ¬(v = ['m', ':'] ∨ v = markChars) →
      ¬(startsWithL v ['n', ':'] = true) →
      ¬(startsWithL v ['d', ':'] = true ∨ startsWithL v ['t', ':'] = true ∨
          startsWithL v ['t', 's', ':'] = true) →
      ¬(startsWithL v ['s', ':'] = true) →
      parse_zinc_value v = .str v) := by
  constructor
  · intro rest hfl
    have g1 : ¬('n' :: ':' :: rest = [] ∨ 'n' :: ':' :: rest = ['N']) := by
      rintro (h | h) <;> simp at h
    have g2 : ¬(('n' :: ':' :: rest).headD ' ' = dquote ∧
        ('n' :: ':' :: rest).getLastD ' ' = dquote) :=
      fun h => absurd (show ('n' : Char) = dquote from h.1) (by decide)
    have g3 : ¬(('n' :: ':' :: rest).headD ' ' = btick ∧
        ('n' :: ':' :: rest).getLastD ' ' = btick) :=
      fun h => absurd (show ('n' : Char) = btick from h.1) (by decide)
    have g4 : startsWithL ('n' :: ':' :: rest) ['r', ':'] = false := by
      simp [startsWithL]
    have g5 : ¬('n' :: ':' :: rest = ['m', ':'] ∨
        'n' :: ':' :: rest = markChars) := by
      rintro (h | h) <;> simp [markChars] at h
    have g6 : startsWithL ('n' :: ':' :: rest) ['n', ':'] = true := by
      simp [startsWithL]
    unfold parse_zinc_value
    rw [if_neg g1, if_neg g2, if_neg g3]
    rw [g4]
    simp only [Bool.false_eq_true, if_false]
    rw [if_neg g5, g6]
    simp only [if_true]
    simp [hfl]
  · intro v h1 h2 h3 h4 h5 h6 h7 h8
    unfold parse_zinc_value
    rw [if_neg h1, if_neg h2, if_neg h3, if_neg h4, if_neg h5, if_neg h6,
      if_neg h7, if_neg h8]

/-- C9 witness: the fallback clauses evaluated at `n:abc` (numeric part
fails to parse) and at `hello` (no rule matches). -/
theorem parse_zinc_value_fallback_witness :
    parse_zinc_value "n:abc".toList = .str "n:abc".toList ∧
    parse_zinc_value "hello".toList = .str "hello".toList := by
  constructor
  · exact parse_zinc_value_fallback.1 "abc".toList (by decide)
  · exact parse_zinc_value_fallback.2 "hello".toList (by decide) (by decide)
      (by decide) (by decide) (by decide) (by decide) (by decide) (by decide)

/-- C8: commas inside double quotes (and, for row tokens, inside
backticks) never split a token.  The concrete conjunct decodes the
grid `ver:"3.0" / id,dis / @p1,"Room, 101"` with `dis` a single cell
`Room, 101`; the general conjuncts show a fully quoted row token, a
fully backticked row token and a fully quoted header token each come
out of the scanners as exactly one cell. -/
theorem zinc_comma_quoting :
    parse_zinc_response "ver:\"3.0\"\nid,dis\n@p1,\"Room, 101\"".toList =
      .grid ⟨"ver:\"3.0\"".toList, ["id".toList, "dis".toList],
        [[("id".toList, .str "@p1".toList),
          ("dis".toList, .str "Room, 101".toList)]]⟩ ∧
    (∀ s, (∀ c ∈ s, ¬(c = dquote)) → splitRow (quoteWrap s) = [quoteWrap s]) ∧
    (∀ s, (∀ c ∈ s, ¬(c = btick)) → splitRow (tickWrap s) = [tickWrap s]) ∧
    (∀ s, ¬(s = []) → (∀ c ∈ s, ¬(c = dquote)) →
      splitHeader (quoteWrap s) = [pyStrip s]) := by
  refine ⟨by decide, ?_, ?_, ?_⟩
  · exact splitRow_quoteWrap
  · exact splitRow_tickWrap
  · exact splitHeader_quoteWrap

/-- C8 witness: the general conjuncts evaluated on tokens that contain
commas between quotes and between backticks. -/
theorem zinc_comma_quoting_witness :
    splitRow (quoteWrap "Room, 101".toList) = [quoteWrap "Room, 101".toList] ∧
    splitRow (tickWrap "http://x/a,b".toList) =
      [tickWrap "http://x/a,b".toList] ∧
    splitHeader (quoteWrap "a, b".toList) = [pyStrip "a, b".toList] :=
  ⟨zinc_comma_quoting.2.1 "Room, 101".toList (by decide),
   zinc_comma_quoting.2.2.1 "http://x/a,b".toList (by decide),
   zinc_comma_quoting.2.2.2 "a, b".toList (by decide) (by decide)⟩

/-- C10: the column names a decoded grid carries never contain a double
quote (the header scanner drops every quote character while toggling its
flag, and a quoted header cell contributes its inner text, stripped),
while the row scanner keeps quote and backtick characters inside the
token and the scalar decoder is the stage that strips them. -/
theorem decodeGrid_cols_no_quote :
    (∀ text g, parse_zinc_response text = .grid g →
      ∀ col ∈ g.cols, ∀ x ∈ col, ¬(x = dquote)) ∧
    (∀ s, ¬(s = []) → (∀ c ∈ s, ¬(c = dquote)) →
      splitHeader (quoteWrap s) = [pyStrip s]) ∧
    (∀ s, (∀ c ∈ s, ¬(c = dquote)) → splitRow (quoteWrap s) = [quoteWrap s]) ∧
    (∀ s, parse_zinc_value (quoteWrap s) = .str s) ∧
    (∀ s, parse_zinc_value (tickWrap s) = .str s) := by
  refine ⟨?_, splitHeader_quoteWrap, splitRow_quoteWrap,
    parse_zinc_value_quoteWrap, parse_zinc_value_tickWrap⟩
  intro text g hpg
  unfold parse_zinc_response at hpg
  cases e : splitChar '\n' (pyStrip text) with
  | nil => rw [e] at hpg; exact absurd hpg (by simp)
  | cons l0 tail =>
    cases tail with
    | nil => rw [e] at hpg; exact absurd hpg (by simp)
    | cons l1 rest =>
      rw [e] at hpg
      simp only [ZincParse.grid.injEq] at hpg
      have hcols : g.cols = splitHeader l1 := by rw [← hpg]
      rw [hcols]
      exact headerScan_no_dquote l1 [] false (by simp)

/-- C10 witness: the quantified conjuncts evaluated at a concrete grid
(whose quoted header cell yields the quote-free column name `col name`)
and at concrete quoted/backticked cells. -/
theorem decodeGrid_cols_no_quote_witness :
    (∀ x ∈ "col name".toList, ¬(x = dquote)) ∧
    parse_zinc_value (quoteWrap "Room, 101".toList) =
      .str "Room, 101".toList := by
  constructor
  · intro x hx
    refine decodeGrid_cols_no_quote.1 "ver:x\n\"col name\"\n7".toList
      ⟨"ver:x".toList, ["col name".toList],
        [[("col name".toList, .str "7".toList)]]⟩ (by decide)
      "col name".toList (by decide) x hx
  · exact decodeGrid_cols_no_quote.2.2.2.1 "Room, 101".toList

/-! ### Helper lemmas about the row dictionary -/

theorem dictInsert_map_fst_mem {d : List (List Char × PyVal)} {k : List Char}
    (v : PyVal) (h : k ∈ d.map Prod.fst) :
    (dictInsert d k v).map Prod.fst = d.map Prod.fst := by
  unfold dictInsert
  have ha : d.any (fun p => p.1 = k) = true := by
    simp only [List.any_eq_true, decide_eq_true_eq]
    rcases List.mem_map.1 h with ⟨p, hp, rfl⟩
    exact ⟨p, hp, rfl⟩
  rw [if_pos ha, List.map_map]
  refine List.map_congr_left ?_
  intro p _
  by_cases hp : p.1 = k
  · simp [Function.comp, hp]
  · simp [Function.comp, hp]

theorem dictInsert_map_fst_not_mem {d : List (List Char × PyVal)}
    {k : List Char} (v : PyVal) (h : ¬(k ∈ d.map Prod.fst)) :
    (dictInsert d k v).map Prod.fst = d.map Prod.fst ++ [k] := by
  unfold dictInsert
  have ha : ¬(d.any (fun p => p.1 = k) = true) := by
    simp only [List.any_eq_true, decide_eq_true_eq]
    rintro ⟨p, hp, rfl⟩
    exact h (List.mem_map.2 ⟨p, hp, rfl⟩)
  rw [if_neg ha, List.map_append]
  rfl

theorem mem_dictInsert_keys {d : List (List Char × PyVal)}
    {k a : List Char} (v : PyVal) :
    a ∈ (dictInsert d k v).map Prod.fst ↔
      (a ∈ d.map Prod.fst ∨ a = k) := by
  by_cases hm : k ∈ d.map Prod.fst
  · rw [dictInsert_map_fst_mem v hm]
    constructor
    · exact Or.inl
    · rintro (h | rfl)
      · exact h
      · exact hm
  · rw [dictInsert_map_fst_not_mem v hm]
    rw [List.mem_append, List.mem_singleton]

theorem lookup_append_single (a k : List Char) (v : PyVal)
    (hak : (a == k) = false) :
    ∀ d : List (List Char × PyVal),
      List.lookup a (d ++ [(k, v)]) = List.lookup a d := by
  intro d
  induction d with
  | nil => simp [List.lookup, hak]
  | cons p t ih =>
    obtain ⟨p1, p2⟩ := p
    rw [List.cons_append]
    cases hap : (a == p1) with
    | true => simp [List.lookup, hap]
    | false => simp only [List.lookup, hap]; exact ih

theorem lookup_append_single_self (k : List Char) (v : PyVal) :
    ∀ d : List (List Char × PyVal), (∀ p ∈ d, ¬(p.1 = k)) →
      List.lookup k (d ++ [(k, v)]) = some v := by
  intro d
  induction d with
  | nil => simp [List.lookup]
  | cons p t ih =>
    intro hall
    obtain ⟨p1, p2⟩ := p
    have hne : (k == p1) = false := by
      simp only [beq_eq_false_iff_ne, ne_eq]
      exact fun hh => hall (p1, p2) (List.mem_cons_self ..) hh.symm
    rw [List.cons_append]
    simp only [List.lookup, hne]
    exact ih (fun q hq => hall q (List.mem_cons_of_mem _ hq))

theorem lookup_map_replace (a k : List Char) (v : PyVal) (ha : ¬(a = k)) :
    ∀ d : List (List Char × PyVal),
      List.lookup a (d.map (fun p => if p.1 = k then (k, v) else p)) =
        List.lookup a d := by
  intro d
  induction d with
  | nil => rfl
  | cons p t ih =>
    obtain ⟨p1, p2⟩ := p
    rw [List.map_cons]
    by_cases hp : p1 = k
    · rw [if_pos (show ((p1, p2) : List Char × PyVal).1 = k from hp)]
      subst hp
      have h2 : (a == p1) = false := by
        simp only [beq_eq_false_iff_ne, ne_eq]; exact ha
      simp only [List.lookup, h2]
      exact ih
    · rw [if_neg (show ¬(((p1, p2) : List Char × PyVal).1 = k) from hp)]
      cases hap : (a == p1) with
      | true => simp [List.lookup, hap]
      | false => simp only [List.lookup, hap]; exact ih

theorem lookup_map_replace_self (k : List Char) (v : PyVal) :
    ∀ d : List (List Char × PyVal), d.any (fun p => p.1 = k) = true →
      List.lookup k (d.map (fun p => if p.1 = k then (k, v) else p)) =
        some v := by
  intro d
  induction d with
  | nil => intro hm; simp at hm
  | cons p t ih =>
    intro hm
    obtain ⟨p1, p2⟩ := p
    rw [List.map_cons]
    by_cases hp : p1 = k
    · rw [if_pos (show ((p1, p2) : List Char × PyVal).1 = k from hp)]
      simp [List.lookup]
    · rw [if_neg (show ¬(((p1, p2) : List Char × PyVal).1 = k) from hp)]
      have hne : (k == p1) = false := by
        simp only [beq_eq_false_iff_ne, ne_eq]
        exact fun hh => hp hh.symm
      have hmt : t.any (fun p => p.1 = k) = true := by
        simp only [List.any_cons, Bool.or_eq_true, decide_eq_true_eq] at hm
        rcases hm with hm | hm
        · exact absurd hm hp
        · exact hm
      simp only [List.lookup, hne]
      exact ih hmt

theorem lookup_dictInsert_self (d : List (List Char × PyVal))
    (k : List Char) (v : PyVal) :
    List.lookup k (dictInsert d k v) = some v := by
  unfold dictInsert
  by_cases hm : d.any (fun p => p.1 = k) = true
  · rw [if_pos hm]
    exact lookup_map_replace_self k v d hm
  · rw [if_neg hm]
    refine lookup_append_single_self k v d ?_
    intro p hp hpk
    exact hm (by simp only [List.any_eq_true, decide_eq_true_eq]
                 exact ⟨p, hp, hpk⟩)

theorem lookup_dictInsert_ne (d : List (List Char × PyVal))
    (k a : List Char) (v : PyVal) (ha : ¬(a = k)) :
    List.lookup a (dictInsert d k v) = List.lookup a d := by
  unfold dictInsert
  by_cases hm : d.any (fun p => p.1 = k) = true
  · rw [if_pos hm]
    exact lookup_map_replace a k v ha d
  · rw [if_neg hm]
    refine lookup_append_single a k v ?_ d
    simp only [beq_eq_false_iff_ne, ne_eq]
    exact ha

theorem mkRowAux_mem_keys (vs : List (List Char)) :
    ∀ (hs : List (List Char)) (i : Nat) (d : List (List Char × PyVal))
      (k : List Char),
      k ∈ (mkRowAux vs hs i d).map Prod.fst ↔
        (k ∈ d.map Prod.fst ∨ k ∈ hs) := by
  intro hs
  induction hs with
  | nil =>
    intro i d k
    exact ⟨fun hh => Or.inl hh, fun hh => hh.resolve_right (List.not_mem_nil k)⟩
  | cons h t ih =>
    intro i d k
    show k ∈ (mkRowAux vs t (i + 1) (dictInsert d h (valAt vs i))).map
      Prod.fst ↔ _
    rw [ih (i + 1) (dictInsert d h (valAt vs i)) k]
    rw [mem_dictInsert_keys]
    simp only [List.mem_cons]
    tauto

theorem mkRowAux_keys_nodup (vs : List (List Char)) :
    ∀ (hs : List (List Char)) (i : Nat) (d : List (List Char × PyVal)),
      hs.Nodup → (∀ x ∈ hs, ¬(x ∈ d.map Prod.fst)) →
      (mkRowAux vs hs i d).map Prod.fst = d.map Prod.fst ++ hs := by
  intro hs
  induction hs with
  | nil => intro i d _ _; simp [mkRowAux]
  | cons h t ih =>
    intro i d hnd hdis
    show (mkRowAux vs t (i + 1) (dictInsert d h (valAt vs i))).map Prod.fst = _
    rw [ih (i + 1) (dictInsert d h (valAt vs i)) (List.nodup_cons.1 hnd).2 ?_]
    · rw [dictInsert_map_fst_not_mem _ (hdis h (List.mem_cons_self ..))]
      simp
    · intro x hx
      rw [mem_dictInsert_keys]
      rintro (hmem | rfl)
      · exact hdis x (List.mem_cons_of_mem _ hx) hmem
      · exact (List.nodup_cons.1 hnd).1 hx

theorem lookup_mkRowAux_not_mem (vs : List (List Char)) :
    ∀ (hs : List (List Char)) (i : Nat) (d : List (List Char × PyVal))
      (a : List Char), ¬(a ∈ hs) →
      List.lookup a (mkRowAux vs hs i d) = List.lookup a d := by
  intro hs
  induction hs with
  | nil => intro i d a _; rfl
  | cons h t ih =>
    intro i d a ha
    show List.lookup a (mkRowAux vs t (i + 1) (dictInsert d h (valAt vs i))) = _
    rw [ih (i + 1) _ a (fun hh => ha (List.mem_cons_of_mem _ hh))]
    exact lookup_dictInsert_ne d h a _
      (fun hh => ha (hh ▸ List.mem_cons_self ..))

theorem lookup_mkRowAux_getD (vs : List (List Char)) :
    ∀ (hs : List (List Char)) (i : Nat) (d : List (List Char × PyVal))
      (j : Nat), hs.Nodup → j < hs.length →
      List.lookup (hs.getD j []) (mkRowAux vs hs i d) =
        some (valAt vs (i + j)) := by
  intro hs
  induction hs with
  | nil => intro i d j _ hj; exact absurd hj (by simp)
  | cons h t ih =>
    intro i d j hnd hj
    cases j with
    | zero =>
      show List.lookup ((h :: t).getD 0 [])
        (mkRowAux vs t (i + 1) (dictInsert d h (valAt vs i))) = _
      rw [List.getD_cons_zero]
      rw [lookup_mkRowAux_not_mem vs t (i + 1) _ h (List.nodup_cons.1 hnd).1]
      rw [lookup_dictInsert_self]
      rfl
    | succ j' =>
      show List.lookup ((h :: t).getD (j' + 1) [])
        (mkRowAux vs t (i + 1) (dictInsert d h (valAt vs i))) = _
      rw [List.getD_cons_succ]
      have hj' : j' < t.length := by
        simp only [List.length_cons] at hj
        omega
      rw [ih (i + 1) _ j' (List.nodup_cons.1 hnd).2 hj']
      have harith : i + 1 + j' = i + (j' + 1) := by omega
      rw [harith]

theorem mkRowAux_take (vs : List (List Char)) (n : Nat) :
    ∀ (hs : List (List Char)) (i : Nat) (d : List (List Char × PyVal)),
      i + hs.length ≤ n → mkRowAux vs hs i d = mkRowAux (vs.take n) hs i d := by
  intro hs
  induction hs with
  | nil => intro i d _; rfl
  | cons h t ih =>
    intro i d hle
    show mkRowAux vs t (i + 1) (dictInsert d h (valAt vs i)) = _
    have hv : valAt (vs.take n) i = valAt vs i := by
      unfold valAt
      rw [List.get?_take (by simp at hle; omega)]
    rw [show mkRowAux (vs.take n) (h :: t) i d =
      mkRowAux (vs.take n) t (i + 1) (dictInsert d h (valAt (vs.take n) i))
      from rfl]
    rw [hv]
    exact ih (i + 1) _ (by simp at hle ⊢; omega)

/-- C3: for any grid text, decoding yields exactly one row per non-blank
data line; every row's key set is exactly the column set (never a
superset or subset), and when the column names are distinct the key list
is exactly the column list; a row shorter than the header is padded with
`None` at the missing trailing columns; and tokens beyond the header
count are discarded (the row only depends on the first N tokens). -/
theorem decodeGrid_shape :
    (∀ text g, parse_zinc_response text = .grid g →
      g.rows.length = (dataLines text).length ∧
      ∀ row ∈ g.rows,
        (∀ k, k ∈ row.map Prod.fst ↔ k ∈ g.cols) ∧
        (g.cols.Nodup → row.map Prod.fst = g.cols)) ∧
    (∀ hs vs j, hs.Nodup → j < hs.length → vs.length ≤ j →
      List.lookup (hs.getD j []) (mkRow hs vs) = some .none) ∧
    (∀ hs vs, mkRow hs vs = mkRow hs (vs.take hs.length)) := by
  refine ⟨?_, ?_, ?_⟩
  · intro text g hpg
    unfold parse_zinc_response at hpg
    cases e : splitChar '\n' (pyStrip text) with
    | nil => rw [e] at hpg; exact absurd hpg (by simp)
    | cons l0 tail =>
      cases tail with
      | nil => rw [e] at hpg; exact absurd hpg (by simp)
      | cons l1 rest =>
        rw [e] at hpg
        simp only [ZincParse.grid.injEq] at hpg
        have hcols : g.cols = splitHeader l1 := by rw [← hpg]
        have hrows : g.rows = (rest.filter (fun l => ¬(pyStrip l = []))).map
            (fun l => mkRow (splitHeader l1) (splitRow l)) := by rw [← hpg]
        constructor
        · rw [hrows]
          unfold dataLines
          rw [e]
          simp
        · intro row hrow
          rw [hrows] at hrow
          rcases List.mem_map.1 hrow with ⟨l, _, rfl⟩
          constructor
          · intro k
            rw [hcols]
            unfold mkRow
            rw [mkRowAux_mem_keys]
            simp
          · intro hnd
            rw [hcols]
            unfold mkRow
            rw [mkRowAux_keys_nodup (splitRow l) (splitHeader l1) 0 []
              (hcols ▸ hnd) (by simp)]
            rfl
  · intro hs vs j hnd hj hlen
    unfold mkRow
    rw [lookup_mkRowAux_getD vs hs 0 [] j hnd hj]
    unfold valAt
    rw [List.get?_eq_none.2 (by omega)]
  · intro hs vs
    unfold mkRow
    exact mkRowAux_take vs hs.length hs 0 [] (by omega)

/-- C3 witness: the shape statement evaluated at a concrete three-line
grid whose single data row is shorter than the header, and the padding
clause evaluated at the missing trailing column. -/
theorem decodeGrid_shape_witness :
    ((ZincGrid.mk "ver:x".toList ["id".toList, "dis".toList]
      [[("id".toList, PyVal.str "@a".toList), ("dis".toList, PyVal.none)]]).rows.length =
      (dataLines "ver:x\nid,dis\n@a".toList).length) ∧
    List.lookup (["id".toList, "dis".toList].getD 1 [])
      (mkRow ["id".toList, "dis".toList] ["@a".toList]) = some .none := by
  constructor
  · exact (decodeGrid_shape.1 "ver:x\nid,dis\n@a".toList
      (ZincGrid.mk "ver:x".toList ["id".toList, "dis".toList]
        [[("id".toList, PyVal.str "@a".toList), ("dis".toList, PyVal.none)]])
      (by decide)).1
  · exact decodeGrid_shape.2.1 ["id".toList, "dis".toList] ["@a".toList] 1
      (by decide) (by decide) (by decide)

/-! ### Helper lemmas about lines, blankness and stripping -/

theorem splitChar_ne_nil (sep : Char) : ∀ l : List Char, splitChar sep l ≠ [] := by
  intro l
  cases l with
  | nil => simp [splitChar]
  | cons x xs =>
    unfold splitChar
    by_cases hx : x = sep
    · simp [hx]
    · rw [if_neg hx]
      cases hs : splitChar sep xs with
      | nil => simp
      | cons t ts => simp

theorem dropTrailingSpace_eq_nil_iff :
    ∀ l : List Char, dropTrailingSpace l = [] ↔ ∀ c ∈ l, isPySpace c = true := by
  intro l
  induction l with
  | nil => simp [dropTrailingSpace]
  | cons c cs ih =>
    unfold dropTrailingSpace
    cases hr : dropTrailingSpace cs with
    | nil =>
      have hall : ∀ x ∈ cs, isPySpace x = true := (ih).1 hr
      by_cases hc : isPySpace c = true
      · simp only [hc, if_true]
        constructor
        · intro _ x hx
          rcases List.mem_cons.1 hx with rfl | hx
          · exact hc
          · exact hall x hx
        · intro _; trivial
      · simp only [hc, Bool.false_eq_true, if_false]
        constructor
        · intro hh; exact absurd hh (by simp)
        · intro hh; exact absurd (hh c (List.mem_cons_self ..)) hc
    | cons a t =>
      constructor
      · intro hh; exact absurd hh (by simp)
      · intro hh
        have : dropTrailingSpace cs = [] :=
          (ih).2 (fun x hx => hh x (List.mem_cons_of_mem _ hx))
        rw [this] at hr
        exact absurd hr (by simp)

theorem pyStrip_eq_nil_iff (l : List Char) :
    pyStrip l = [] ↔ ∀ c ∈ l, isPySpace c = true := by
  unfold pyStrip
  rw [dropTrailingSpace_eq_nil_iff]
  constructor
  · intro h c hc
    rw [← List.takeWhile_append_dropWhile (p := isPySpace) (l := l)] at hc
    rcases List.mem_append.1 hc with hx | hx
    · exact List.mem_takeWhile_imp hx
    · exact h c hx
  · intro h c hc
    exact h c ((List.dropWhile_sublist _).subset hc)

theorem headD_dropTrailingSpace (l : List Char) (d : Char)
    (h : ¬(dropTrailingSpace l = [])) :
    (dropTrailingSpace l).headD d = l.headD d := by
  cases l with
  | nil => simp [dropTrailingSpace] at h
  | cons c cs =>
    unfold dropTrailingSpace at h ⊢
    cases hr : dropTrailingSpace cs with
    | nil =>
      rw [hr] at h
      by_cases hc : isPySpace c = true
      · simp [hc] at h
      · simp [hc]
    | cons a t => rfl

theorem headD_pyStrip_nonspace (l : List Char) (h : ¬(pyStrip l = [])) :
    isPySpace ((pyStrip l).headD ' ') = false := by
  unfold pyStrip at h ⊢
  rw [headD_dropTrailingSpace _ _ h]
  cases hd : List.dropWhile isPySpace l with
  | nil =>
    rw [hd] at h
    simp [dropTrailingSpace] at h
  | cons c cs =>
    have : isPySpace c = false := by
      have := List.head?_dropWhile_not isPySpace l
      rw [hd] at this
      simpa using this
    simpa [hd] using this

theorem getLastD_dropTrailingSpace_nonspace :
    ∀ l : List Char, ¬(dropTrailingSpace l = []) →
      isPySpace ((dropTrailingSpace l).getLastD ' ') = false := by
  intro l
  induction l with
  | nil => intro h; simp [dropTrailingSpace] at h
  | cons c cs ih =>
    intro h
    unfold dropTrailingSpace at h ⊢
    cases hr : dropTrailingSpace cs with
    | nil =>
      rw [hr] at h
      by_cases hc : isPySpace c = true
      · simp [hc] at h
      · have hcf : isPySpace c = false := eq_false_of_ne_true hc
        simp [hc, hcf]
    | cons a t =>
      have hne : ¬(dropTrailingSpace cs = []) := by rw [hr]; simp
      have hih := ih hne
      rw [hr] at hih
      show isPySpace ((c :: a :: t).getLastD ' ') = false
      rw [List.getLastD_cons, List.getLastD_cons]
      rw [List.getLastD_cons] at hih
      exact hih

theorem getLastD_pyStrip_nonspace (l : List Char) (h : ¬(pyStrip l = [])) :
    isPySpace ((pyStrip l).getLastD ' ') = false := by
  unfold pyStrip at h ⊢
  exact getLastD_dropTrailingSpace_nonspace _ h

theorem exists_dropTrailingSpace_append :
    ∀ l : List Char, ∃ post, l = dropTrailingSpace l ++ post := by
  intro l
  induction l with
  | nil => exact ⟨[], rfl⟩
  | cons c cs ih =>
    rcases ih with ⟨post, hpost⟩
    unfold dropTrailingSpace
    cases hr : dropTrailingSpace cs with
    | nil =>
      by_cases hc : isPySpace c = true
      · refine ⟨c :: cs, ?_⟩
        simp [hc]
      · refine ⟨post, ?_⟩
        rw [hr] at hpost
        simp only [List.nil_append] at hpost
        simp [hc, hpost]
    | cons a t =>
      refine ⟨post, ?_⟩
      rw [hr] at hpost
      show c :: cs = (c :: (a :: t)) ++ post
      rw [List.cons_append, ← hpost]

theorem exists_pyStrip_decomp (l : List Char) :
    ∃ pre post, l = pre ++ pyStrip l ++ post := by
  rcases exists_dropTrailingSpace_append (l.dropWhile isPySpace) with ⟨post, hp⟩
  refine ⟨l.takeWhile isPySpace, post, ?_⟩
  unfold pyStrip
  rw [List.append_assoc, ← hp, List.takeWhile_append_dropWhile]

theorem headD_mem {u : List Char} (d : Char) (h : ¬(u = [])) :
    u.headD d ∈ u := by
  cases u with
  | nil => exact absurd rfl h
  | cons x xs => exact List.mem_cons_self ..

theorem headD_append {u : List Char} (w : List Char) (d : Char)
    (h : ¬(u = [])) : (u ++ w).headD d = u.headD d := by
  cases u with
  | nil => exact absurd rfl h
  | cons x xs => rfl

theorem getLastD_append (u : List Char) {w : List Char} (d : Char)
    (h : ¬(w = [])) : (u ++ w).getLastD d = w.getLastD d := by
  induction u generalizing d with
  | nil => rfl
  | cons x xs ih =>
    rw [List.cons_append, List.getLastD_cons, ih x]
    cases w with
    | nil => exact absurd rfl h
    | cons y ys => rw [List.getLastD_cons, List.getLastD_cons]

theorem getLastD_mem {w : List Char} (d : Char) (h : ¬(w = [])) :
    w.getLastD d ∈ w := by
  induction w generalizing d with
  | nil => exact absurd rfl h
  | cons y ys ih =>
    rw [List.getLastD_cons]
    cases ys with
    | nil => simp
    | cons z zs => exact List.mem_cons_of_mem _ (ih y (by simp))

theorem splitChar_cons_sep (sep : Char) (b : List Char) :
    splitChar sep (sep :: b) = [] :: splitChar sep b := by
  rw [splitChar, if_pos rfl]

theorem splitChar_cons_ne (sep x : Char) (b : List Char) (hx : ¬(x = sep)) :
    splitChar sep (x :: b) =
      match splitChar sep b with
      | t :: ts => (x :: t) :: ts
      | [] => [[x]] := by
  rw [splitChar, if_neg hx]

theorem splitChar_append_sep (sep : Char) :
    ∀ a b : List Char,
      splitChar sep (a ++ sep :: b) = splitChar sep a ++ splitChar sep b := by
  intro a b
  induction a with
  | nil =>
    show splitChar sep (sep :: b) = [[]] ++ splitChar sep b
    rw [splitChar_cons_sep]
    rfl
  | cons x xs ih =>
    show splitChar sep (x :: (xs ++ sep :: b)) =
      splitChar sep (x :: xs) ++ splitChar sep b
    by_cases hx : x = sep
    · subst hx
      rw [splitChar_cons_sep, splitChar_cons_sep, ih]
      rfl
    · rw [splitChar_cons_ne sep x _ hx, splitChar_cons_ne sep x xs hx, ih]
      cases e : splitChar sep xs with
      | nil => exact absurd e (splitChar_ne_nil sep xs)
      | cons t ts => rfl

theorem splitChar_no_sep (sep : Char) :
    ∀ l : List Char, ¬(sep ∈ l) → splitChar sep l = [l] := by
  intro l
  induction l with
  | nil => intro _; rfl
  | cons x xs ih =>
    intro h
    rw [splitChar_cons_ne sep x xs (fun hh => h (hh ▸ List.mem_cons_self ..))]
    rw [ih (fun hh => h (List.mem_cons_of_mem _ hh))]

theorem splitChar_two_iff (sep : Char) :
    ∀ m : List Char, 2 ≤ (splitChar sep m).length ↔ sep ∈ m := by
  intro m
  induction m with
  | nil => simp [splitChar]
  | cons x xs ih =>
    by_cases hx : x = sep
    · subst hx
      constructor
      · intro _; exact List.mem_cons_self ..
      · intro _
        show 2 ≤ (splitChar x (x :: xs)).length
        rw [splitChar_cons_sep]
        have := splitChar_ne_nil x xs
        cases e : splitChar x xs with
        | nil => exact absurd e this
        | cons t ts => simp [e]
    · have hlen : (splitChar sep (x :: xs)).length =
          (splitChar sep xs).length := by
        rw [splitChar_cons_ne sep x xs hx]
        cases e : splitChar sep xs with
        | nil => exact absurd e (splitChar_ne_nil sep xs)
        | cons t ts => rfl
      rw [hlen, ih]
      constructor
      · exact List.mem_cons_of_mem _
      · intro hh
        rcases List.mem_cons.1 hh with hh | hh
        · exact absurd hh.symm hx
        · exact hh

theorem splitFirst_none (sep : Char) :
    ∀ l : List Char, (splitFirst sep l).2 = none → ¬(sep ∈ l) := by
  intro l
  induction l with
  | nil => intro _ h; simp at h
  | cons x xs ih =>
    intro h hmem
    by_cases hx : x = sep
    · rw [splitFirst, if_pos hx] at h; simp at h
    · rw [splitFirst, if_neg hx] at h
      simp only at h
      rcases List.mem_cons.1 hmem with hh | hh
      · exact hx hh.symm
      · exact ih h hh

theorem splitFirst_some (sep : Char) :
    ∀ (l r : List Char), (splitFirst sep l).2 = some r →
      l = (splitFirst sep l).1 ++ sep :: r ∧ ¬(sep ∈ (splitFirst sep l).1) := by
  intro l
  induction l with
  | nil => intro r h; simp [splitFirst] at h
  | cons x xs ih =>
    intro r h
    by_cases hx : x = sep
    · rw [splitFirst, if_pos hx] at h ⊢
      simp only [Option.some.injEq] at h
      subst h
      exact ⟨by subst hx; rfl, by simp⟩
    · rw [splitFirst, if_neg hx] at h ⊢
      simp only at h
      rcases ih r h with ⟨h1, h2⟩
      constructor
      · show x :: xs = x :: (splitFirst sep xs).1 ++ sep :: r
        rw [List.cons_append, ← h1]
      · intro hh
        rcases List.mem_cons.1 hh with hh | hh
        · exact hx hh.symm
        · exact h2 hh

theorem mem_of_mem_splitChar (sep : Char) :
    ∀ (l t : List Char) (x : Char), t ∈ splitChar sep l → x ∈ t → x ∈ l := by
  intro l
  induction l with
  | nil =>
    intro t x ht hx
    simp [splitChar] at ht
    subst ht
    simp at hx
  | cons y ys ih =>
    intro t x ht hx
    by_cases hy : y = sep
    · subst hy
      rw [splitChar_cons_sep] at ht
      rcases List.mem_cons.1 ht with rfl | ht2
      · simp at hx
      · exact List.mem_cons_of_mem _ (ih t x ht2 hx)
    · rw [splitChar_cons_ne sep y ys hy] at ht
      cases e : splitChar sep ys with
      | nil => exact absurd e (splitChar_ne_nil sep ys)
      | cons u us =>
        rw [e] at ht
        rcases List.mem_cons.1 ht with rfl | ht2
        · rcases List.mem_cons.1 hx with rfl | hx2
          · exact List.mem_cons_self ..
          · exact List.mem_cons_of_mem _
              (ih u x (e ▸ List.mem_cons_self ..) hx2)
        · exact List.mem_cons_of_mem _
            (ih t x (e ▸ List.mem_cons_of_mem _ ht2) hx)

theorem count_cons_space (c : Char) (l : List Char) (hc : isPySpace c = true) :
    (nonBlankLines (c :: l)).length = (nonBlankLines l).length := by
  unfold nonBlankLines
  by_cases hcn : c = '\n'
  · subst hcn
    rw [splitChar_cons_sep]
    simp [List.filter_cons, pyStrip, dropTrailingSpace]
  · rw [splitChar_cons_ne '\n' c l hcn]
    cases e : splitChar '\n' l with
    | nil => exact absurd e (splitChar_ne_nil _ l)
    | cons t ts =>
      have hps : pyStrip (c :: t) = pyStrip t := by
        unfold pyStrip
        simp [List.dropWhile, hc]
      by_cases hb : pyStrip t = [] <;>
        simp [List.filter_cons, hps, hb]

theorem count_all_space (l : List Char) (h : ∀ x ∈ l, isPySpace x = true) :
    nonBlankLines l = [] := by
  unfold nonBlankLines
  rw [List.filter_eq_nil]
  intro t ht
  have hts : pyStrip t = [] := (pyStrip_eq_nil_iff t).2
    (fun c hc => h c (mem_of_mem_splitChar '\n' l t c ht hc))
  simp [hts]

theorem count_pos_of_nonspace :
    ∀ (l : List Char) (x : Char), x ∈ l → isPySpace x = false →
      1 ≤ (nonBlankLines l).length := by
  intro l
  induction l with
  | nil => intro x hx _; simp at hx
  | cons c cs ih =>
    intro x hx hxs
    by_cases hsp : isPySpace c = true
    · rw [count_cons_space c cs hsp]
      rcases List.mem_cons.1 hx with rfl | hx2
      · rw [hsp] at hxs; simp at hxs
      · exact ih x hx2 hxs
    · have hcn : ¬(c = '\n') := by
        intro he; rw [he] at hsp; simp [isPySpace] at hsp
      unfold nonBlankLines
      rw [splitChar_cons_ne '\n' c cs hcn]
      cases e : splitChar '\n' cs with
      | nil => exact absurd e (splitChar_ne_nil _ cs)
      | cons t ts =>
        have hnb : ¬(pyStrip (c :: t) = []) := by
          rw [pyStrip_eq_nil_iff]
          intro hall
          exact hsp (hall c (List.mem_cons_self ..))
        simp [List.filter_cons, hnb]

theorem count_single_line (l : List Char) (hnl : ¬('\n' ∈ l)) :
    (nonBlankLines l).length ≤ 1 := by
  unfold nonBlankLines
  rw [splitChar_no_sep '\n' l hnl]
  by_cases hb : pyStrip l = [] <;> simp [List.filter_cons, hb]

theorem count_single_line_nonblank (c : Char) (f : List Char)
    (hc : isPySpace c = false) (hnl : ¬('\n' ∈ c :: f)) :
    (nonBlankLines (c :: f)).length = 1 := by
  unfold nonBlankLines
  rw [splitChar_no_sep '\n' _ hnl]
  have hnb : ¬(pyStrip (c :: f) = []) := by
    rw [pyStrip_eq_nil_iff]
    intro hall
    rw [hall c (List.mem_cons_self ..)] at hc
    simp at hc
  simp [List.filter_cons, hnb]

theorem count_append_newline (a b : List Char) :
    (nonBlankLines (a ++ '\n' :: b)).length =
      (nonBlankLines a).length + (nonBlankLines b).length := by
  unfold nonBlankLines
  rw [splitChar_append_sep, List.filter_append, List.length_append]

theorem count_two_decomp :
    ∀ text : List Char, 2 ≤ (nonBlankLines text).length →
      ∃ A B, text = A ++ '\n' :: B ∧ (∃ x ∈ A, isPySpace x = false) ∧
        (∃ y ∈ B, isPySpace y = false) := by
  intro text
  induction text with
  | nil => intro h2; exact absurd h2 (by decide)
  | cons c cs ih =>
    intro h2
    by_cases hsp : isPySpace c = true
    · rw [count_cons_space c cs hsp] at h2
      rcases ih h2 with ⟨A, B, hAB, ⟨x, hxA, hxs⟩, hB⟩
      exact ⟨c :: A, B, by rw [hAB, List.cons_append],
        ⟨x, List.mem_cons_of_mem _ hxA, hxs⟩, hB⟩
    · have hcf : isPySpace c = false := eq_false_of_ne_true hsp
      have hcn : ¬(c = '\n') := by
        intro he; rw [he] at hcf; simp [isPySpace] at hcf
      cases hsf : (splitFirst '\n' cs).2 with
      | none =>
        have hnlcs := splitFirst_none '\n' cs hsf
        have hnl : ¬('\n' ∈ c :: cs) := by
          intro hh
          rcases List.mem_cons.1 hh with hh | hh
          · exact hcn hh.symm
          · exact hnlcs hh
        exact absurd h2 (by have := count_single_line (c :: cs) hnl; omega)
      | some r =>
        rcases splitFirst_some '\n' cs r hsf with ⟨hdec, hnf⟩
        have htext : c :: cs = (c :: (splitFirst '\n' cs).1) ++ '\n' :: r := by
          rw [List.cons_append, ← hdec]
        have hnlcf : ¬('\n' ∈ c :: (splitFirst '\n' cs).1) := by
          intro hh
          rcases List.mem_cons.1 hh with hh | hh
          · exact hcn hh.symm
          · exact hnf hh
        have hcount : (nonBlankLines (c :: cs)).length =
            1 + (nonBlankLines r).length := by
          rw [htext, count_append_newline,
            count_single_line_nonblank c _ hcf hnlcf]
        have hr1 : 1 ≤ (nonBlankLines r).length := by omega
        have hrex : ∃ y ∈ r, isPySpace y = false := by
          by_contra hcon
          push_neg at hcon
          have hall : ∀ y ∈ r, isPySpace y = true := by
            intro y hy
            cases hby : isPySpace y with
            | false => exact absurd hby (hcon y hy)
            | true => rfl
          rw [count_all_space r hall] at hr1
          simp at hr1
        exact ⟨c :: (splitFirst '\n' cs).1, r, htext,
          ⟨c, List.mem_cons_self .., hcf⟩, hrex⟩

theorem getLastD_irrel {w : List Char} (d d' : Char) (h : ¬(w = [])) :
    w.getLastD d = w.getLastD d' := by
  cases w with
  | nil => exact absurd rfl h
  | cons y ys => rw [List.getLastD_cons, List.getLastD_cons]

theorem newline_strip_count (text : List Char) (h : '\n' ∈ pyStrip text) :
    2 ≤ (nonBlankLines text).length := by
  rcases List.append_of_mem h with ⟨u, v, huv⟩
  rcases exists_pyStrip_decomp text with ⟨pre, post, hdec⟩
  have hne : ¬(pyStrip text = []) := by rw [huv]; simp
  have hhead := headD_pyStrip_nonspace text hne
  have hlast := getLastD_pyStrip_nonspace text hne
  have hu : ¬(u = []) := by
    rintro rfl
    rw [huv] at hhead
    simp [isPySpace] at hhead
  have hv : ¬(v = []) := by
    rintro rfl
    rw [huv, getLastD_snoc u '\n' ' '] at hlast
    simp [isPySpace] at hlast
  have hxu : isPySpace (u.headD ' ') = false := by
    rw [huv, headD_append ('\n' :: v) ' ' hu] at hhead
    exact hhead
  have hyv : isPySpace (v.getLastD ' ') = false := by
    rw [huv, getLastD_append u ' ' (by simp)] at hlast
    rw [List.getLastD_cons] at hlast
    rw [getLastD_irrel ' ' '\n' hv]
    exact hlast
  have htext2 : text = (pre ++ u) ++ '\n' :: (v ++ post) := by
    rw [hdec, huv]
    simp [List.append_assoc]
  rw [htext2, count_append_newline]
  have h1 := count_pos_of_nonspace (pre ++ u) (u.headD ' ')
    (List.mem_append.2 (Or.inr (headD_mem ' ' hu))) hxu
  have h2 := count_pos_of_nonspace (v ++ post) (v.getLastD ' ')
    (List.mem_append.2 (Or.inl (getLastD_mem ' ' hv))) hyv
  omega

theorem dropWhile_append_of_ne_nil :
    ∀ (a b : List Char), ¬(List.dropWhile isPySpace a = []) →
      List.dropWhile isPySpace (a ++ b) = List.dropWhile isPySpace a ++ b := by
  intro a
  induction a with
  | nil => intro b h; exact absurd rfl h
  | cons c a' ih =>
    intro b h
    by_cases hc : isPySpace c = true
    · rw [List.cons_append]
      rw [show List.dropWhile isPySpace (c :: (a' ++ b)) =
        List.dropWhile isPySpace (a' ++ b) by simp [List.dropWhile, hc]]
      rw [show List.dropWhile isPySpace (c :: a') =
        List.dropWhile isPySpace a' by simp [List.dropWhile, hc]]
      refine ih b ?_
      intro hh
      rw [show List.dropWhile isPySpace (c :: a') =
        List.dropWhile isPySpace a' by simp [List.dropWhile, hc]] at h
      exact h hh
    · rw [List.cons_append]
      rw [show List.dropWhile isPySpace (c :: (a' ++ b)) =
        c :: (a' ++ b) by simp [List.dropWhile, hc]]
      rw [show List.dropWhile isPySpace (c :: a') = c :: a' by
        simp [List.dropWhile, hc]]
      rfl

theorem dropTrailingSpace_append_keep (v : List Char)
    (hv : ∃ y ∈ v, isPySpace y = false) :
    ∀ u : List Char, dropTrailingSpace (u ++ v) = u ++ dropTrailingSpace v := by
  have hvne : ¬(dropTrailingSpace v = []) := by
    rw [dropTrailingSpace_eq_nil_iff]
    intro hall
    rcases hv with ⟨y, hy, hys⟩
    rw [hall y hy] at hys
    simp at hys
  intro u
  induction u with
  | nil => rfl
  | cons c u' ih =>
    show dropTrailingSpace (c :: (u' ++ v)) = (c :: u') ++ dropTrailingSpace v
    rw [dropTrailingSpace, ih]
    cases e : u' ++ dropTrailingSpace v with
    | nil =>
      rcases List.append_eq_nil.1 e with ⟨_, h2⟩
      exact absurd h2 hvne
    | cons a t => rw [List.cons_append, e]

theorem count_newline_strip (text : List Char)
    (h2 : 2 ≤ (nonBlankLines text).length) : '\n' ∈ pyStrip text := by
  rcases count_two_decomp text h2 with ⟨A, B, hAB, ⟨x, hxA, hxs⟩, hB⟩
  rw [hAB]
  unfold pyStrip
  have hdwA : ¬(List.dropWhile isPySpace A = []) := by
    rw [List.dropWhile_eq_nil_iff]
    intro hall
    rw [hall x hxA] at hxs
    simp at hxs
  rw [dropWhile_append_of_ne_nil A ('\n' :: B) hdwA]
  have hmemB : ∃ y ∈ '\n' :: B, isPySpace y = false := by
    rcases hB with ⟨y, hy, hys⟩
    exact ⟨y, List.mem_cons_of_mem _ hy, hys⟩
  rw [dropTrailingSpace_append_keep ('\n' :: B) hmemB]
  refine List.mem_append.2 (Or.inr ?_)
  have hBne : ¬(dropTrailingSpace B = []) := by
    rw [dropTrailingSpace_eq_nil_iff]
    intro hall
    rcases hB with ⟨y, hy, hys⟩
    rw [hall y hy] at hys
    simp at hys
  unfold dropTrailingSpace
  cases e : dropTrailingSpace B with
  | nil => exact absurd e hBne
  | cons a t => exact List.mem_cons_self ..

/-- C5: decoding fails with the invalid-format error exactly when the
body has fewer than two non-blank lines; every body with at least two
non-blank lines decodes into a grid.  (A line is non-blank when it holds
any non-whitespace character; the version and header lines demanded by
the decoder are exactly the first two lines that survive stripping.) -/
theorem decodeGrid_min_lines :
    ∀ text : List Char,
      (∃ g, parse_zinc_response text = .grid g) ↔
        2 ≤ (nonBlankLines text).length := by
  intro text
  constructor
  · rintro ⟨g, hg⟩
    unfold parse_zinc_response at hg
    cases e : splitChar '\n' (pyStrip text) with
    | nil => exact absurd e (splitChar_ne_nil _ _)
    | cons l0 tail =>
      cases tail with
      | nil => rw [e] at hg; simp at hg
      | cons l1 rest =>
        have hlen : 2 ≤ (splitChar '\n' (pyStrip text)).length := by
          rw [e]; simp
        exact newline_strip_count text
          ((splitChar_two_iff '\n' (pyStrip text)).1 hlen)
  · intro h2
    have hlen := (splitChar_two_iff '\n' (pyStrip text)).2
      (count_newline_strip text h2)
    unfold parse_zinc_response
    cases e : splitChar '\n' (pyStrip text) with
    | nil => exact absurd e (splitChar_ne_nil _ _)
    | cons l0 tail =>
      cases tail with
      | nil => rw [e] at hlen; simp at hlen
      | cons l1 rest => exact ⟨_, rfl⟩

/-- C5 witness: the iff evaluated at a body with exactly two non-blank
lines, which therefore decodes to a grid. -/
theorem decodeGrid_min_lines_witness :
    ∃ g, parse_zinc_response "ver:x\ncol".toList = .grid g :=
  (decodeGrid_min_lines "ver:x\ncol".toList).mpr (by decide)

end Niagara
